import Mathlib

/-!
Verification of cmd/changelog/generate.go (package changelog of thorn3r/release).

The file embeds the source shallowly:
- Config and Config.Sanitize (lines 49-88): pure function on a Config value.
  The Go method takes its receiver by value, so the embedding returns the
  final state of the local receiver copy together with the error; the call
  site semantics (sanitizeValueCall) discards the copy, like Go does.
- The commit walk of GenerateReleaseNotes (lines 112-153): the remote
  CompareCommits collaborator is a parameter mapping the current head to a
  page of commit identifiers (ordered base to head) or an error. The
  unbounded Go loop becomes fuel-indexed recursion; Go slice indexing that
  can go out of bounds is made explicit as a panic outcome.
- The store/classify sequencing of GenerateReleaseNotes (lines 97-180):
  GeneratePatchRelease and StoreState are collaborator parameters; the
  output records every StoreState invocation with its arguments and result.
- PrintReleaseNotes (lines 182-273): Go maps become association lists
  (types.PullRequests and types.BackportPRs are declared outside this file;
  their shape, a map from PR number to pull request data and a two-level
  such map, is taken from their use here and from the spec data model). Go
  map iteration order is unspecified, and every per-entry decision in the
  scans depends only on the entry itself, so list iteration is a faithful
  representative; the per-category output is modelled by the emission lists
  in scan order, from which the printed lines arise by applying the format
  functions and sorting case-insensitively per category.
-/

/-- Go strings.Split on a single separator character, on character lists:
splitting the empty list yields one empty part, and separators at the ends
yield empty parts, exactly like the Go function. -/
def splitChar (sep : Char) : List Char → List (List Char)
  | [] => [[]]
  | c :: cs =>
    match splitChar sep cs with
    | [] => if c = sep then [[], []] else [[c]]
    | g :: gs => if c = sep then [] :: g :: gs else (c :: g) :: gs

/-- Go strings.Split(s, sep) for a one-character separator. -/
def goStringsSplit (s : String) (sep : Char) : List String :=
  (splitChar sep s.data).map String.mk

/-- Whether sub occurs as a contiguous sublist of l (Go strings.Contains on
character lists). -/
def containsSub (l sub : List Char) : Bool :=
  (List.range (l.length + 1)).any (fun i => sub.isPrefixOf (l.drop i))

/-- Go strings.Contains(s, sub). -/
def strContains (s sub : String) : Bool :=
  containsSub s.data sub.data

/-- The Config struct of generate.go (lines 49-65). -/
structure Config where
  Base : String
  Head : String
  LastStable : String
  StateFile : String
  RepoName : String
  Owner : String
  Repo : String
  CurrVer : String
  NextVer : String
  ForceMovePending : Bool
deriving DecidableEq

/-- Config.Sanitize (generate.go lines 67-88). The Go method has a value
receiver; the returned Config is the final state of the local receiver
copy (which the assignments of lines 72-73 mutate), and the Option String
is the returned error. Every branch after the owner-repo assignment
returns that same updated copy, so the pair is hoisted. Apostrophes of the
original messages are spelled out as "cannot"; no theorem depends on the
message text of this function. -/
def Config.Sanitize (cfg : Config) : Config × Option String :=
  let ownerRepo := goStringsSplit cfg.RepoName '/'
  if ownerRepo.length ≠ 2 then
    (cfg, some ("Invalid repo name: " ++ cfg.RepoName ++ "\n"))
  else
    let cfg := { cfg with Owner := ownerRepo.getD 0 "", Repo := ownerRepo.getD 1 "" }
    (cfg,
      if cfg.Base = "" ∧ cfg.CurrVer = "" then
        some "--base cannot be empty\n"
      else if cfg.Head = "" ∧ cfg.CurrVer = "" then
        some "--head cannot be empty\n"
      else if cfg.StateFile = "" then
        some "--state-file cannot be empty\n"
      else if strContains cfg.LastStable "v" then
        some "--last-stable cannot contain letters, should be of the format x.y\n"
      else none)

/-- The semantics of the call cfg.Sanitize() at a call site: Go passes the
receiver by value, so the caller observes its own unchanged cfg plus the
returned error; the final receiver copy of the body is discarded. -/
def sanitizeValueCall (cfg : Config) : Config × Option String :=
  (cfg, (Config.Sanitize cfg).2)

/-- Follows the words of the spec (not the source): the repository
identifier splits on the slash into exactly two non-empty parts. -/
def splitsIntoTwoNonEmptyParts (s : String) : Bool :=
  let parts := goStringsSplit s '/'
  parts.length == 2 && parts.all (fun p => p != "")

/-- A pull request as used by generate.go: its fields are accessed there as
ReleaseLabel, ReleaseNote, AuthorName and BackportBranches; the numeric PR
identifier is the key of the surrounding mapping. -/
structure PullRequest where
  AuthorName : String
  ReleaseNote : String
  ReleaseLabel : String
  BackportBranches : List String
deriving DecidableEq

/-- Align the boolean equality of mapping entries with the one derived
from decidable equality, so that counting lemmas apply uniformly. -/
instance (priority := 2000) : BEq (Nat × PullRequest) := instBEqOfDecidableEq

instance (priority := 2000) : BEq (Nat × Nat × PullRequest) := instBEqOfDecidableEq

instance (priority := 2000) : LawfulBEq (Nat × PullRequest) where
  eq_of_beq h := of_decide_eq_true h
  rfl := decide_eq_true rfl

instance (priority := 2000) : LawfulBEq (Nat × Nat × PullRequest) where
  eq_of_beq h := of_decide_eq_true h
  rfl := decide_eq_true rfl

/-- types.PullRequests: map from PR number to pull request, as an
association list (keys are unique in the Go map). -/
abbrev PullRequests := List (Nat × PullRequest)

/-- types.BackportPRs: map from backport PR number to the mapping of the
upstream PRs it backports. -/
abbrev BackportPRs := List (Nat × PullRequests)

/-- The ChangeLog struct of generate.go (lines 90-95). -/
structure ChangeLog where
  cfg : Config
  prsWithUpstream : BackportPRs
  listOfPrs : PullRequests

/-- Category labels in the fixed display order (generate.go lines 40-47). -/
def releaseNotesOrder : List String :=
  ["release-note/major", "release-note/minor", "release-note/bug",
   "release-note/ci", "release-note/misc", "release-note/none"]

/-- Category headers (generate.go lines 31-38), as an association list. -/
def releaseNotes : List (String × String) :=
  [("release-note/major", "**Major Changes:**"),
   ("release-note/minor", "**Minor Changes:**"),
   ("release-note/bug", "**Bugfixes:**"),
   ("release-note/ci", "**CI Changes:**"),
   ("release-note/misc", "**Misc Changes:**"),
   ("release-note/none", "**Other Changes:**")]

/-! ## The commit walk (GenerateReleaseNotes, lines 112-153) -/

/-- The inner loop "for i := start; i != 0; i--" of lines 144-149: appends
commits[start], commits[start-1], ..., commits[1] to shas, skipping empty
identifiers. The out-of-bounds start = -1 case (cont with a one-commit
page) is excluded before this loop is entered (see walkStep). -/
def pageStore (commits : List String) : Nat → List String → List String
  | 0, shas => shas
  | i+1, shas =>
      let sha := commits.getD (i+1) ""
      pageStore commits i (if sha = "" then shas else shas ++ [sha])

/-- Outcome of one iteration of the walk loop. -/
inductive StepResult where
  | done (shas : List String)
  | panic (shas : List String)
  | fail (head : String) (e : String) (shas : List String)
  | next (head : String) (prevHead : String) (shas : List String)
deriving DecidableEq

/-- One iteration of the loop of lines 116-153. compare maps the current
head to the CompareCommits page for base...head (ordered base to head) or
to the error of the call. Mirrors the source exactly:
- an empty page makes line 122 index cc.Commits[-1]: panic;
- if prevHead equals the last identifier of the page, the walk stops,
  appending the first identifier of the page when it is non-empty
  (lines 122-128);
- a one-commit page with cont set makes start = -1 and line 145 index
  cc.Commits[-1]: panic;
- otherwise the page is stored from index start down to 1, and line 150
  indexes shas[-1] if nothing has ever been stored: panic;
- else the head becomes the last stored identifier, cont is set, and
  prevHead becomes the last identifier of the page. -/
def walkStep (compare : String → Except String (List String))
    (head prevHead : String) (cont : Bool) (shas : List String) : StepResult :=
  match compare head with
  | .error e => .fail head e shas
  | .ok commits =>
    if commits.length = 0 then .panic shas
    else if prevHead = commits.getLastD "" then
      .done (if commits.headD "" = "" then shas else shas ++ [commits.headD ""])
    else if cont ∧ commits.length = 1 then .panic shas
    else
      let start := if cont then commits.length - 2 else commits.length - 1
      let shas2 := pageStore commits start shas
      if shas2.length = 0 then .panic shas2
      else .next (shas2.getLastD "") (commits.getLastD "") shas2

/-- Result of the whole walk. success carries the final value of cfg.Head
(the head of the last comparison) and the accumulated identifiers;
compareError carries the head of the failing comparison, its error and the
identifiers accumulated so far; panic marks an out-of-bounds slice index;
fuelExhausted is the artifact of modelling the unbounded Go loop with
fuel and never arises with enough fuel. -/
inductive WalkResult where
  | success (head : String) (shas : List String)
  | compareError (head : String) (e : String) (shas : List String)
  | panic (shas : List String)
  | fuelExhausted (shas : List String)
deriving DecidableEq

/-- The walk loop of lines 116-153, iterating walkStep. -/
def walkGo (compare : String → Except String (List String)) :
    Nat → String → String → Bool → List String → WalkResult
  | 0, _, _, _, shas => .fuelExhausted shas
  | fuel+1, head, prevHead, cont, shas =>
    match walkStep compare head prevHead cont shas with
    | .done s => .success head s
    | .panic s => .panic s
    | .fail h e s => .compareError h e s
    | .next h p s => walkGo compare fuel h p true s

/-- The contiguous slice of the history H from index i to index j
inclusive (0-indexed, base-to-head order). Comparison pages are such
slices ending at the queried head. -/
def chunk (H : List String) (i j : Nat) : List String :=
  (H.drop i).take (j + 1 - i)

/-- The scenario of the walk correctness property: a synthetic commit
history H (the commits strictly after base up to head, in base-to-head
order, distinct, with non-empty identifiers, at least two of them so that
a page of at least two commits exists), and a comparison oracle whose
answer for the query head H[j] is the contiguous slice of H from the cut
point to j. This encodes that the paginated responses are consistent
truncations of the one history, together covering it: every page ends
exactly at the queried head, which is the single boundary commit shared
with the already accumulated list, and no page except the bottom one
H[0..1] is a two-commit page, i.e. the oracle only stalls at the true
base (a stall anywhere else would mean the pages fail to cover the
history, since the walk is the only consumer and stops there). -/
structure CoversHistory (H : List String) (cut : Nat → Nat)
    (compare : String → Except String (List String)) : Prop where
  two_le : 2 ≤ H.length
  nodup : H.Nodup
  nonempty : ∀ s ∈ H, s ≠ ""
  cut_lt : ∀ j, 2 ≤ j → j < H.length → cut j + 2 ≤ j
  cut_one : cut 1 = 0
  pages : ∀ j, 1 ≤ j → j < H.length →
    compare (H.getD j "") = Except.ok (chunk H (cut j) j)

/-! ## GenerateReleaseNotes (lines 97-180) -/

/-- Outcome of GenerateReleaseNotes. panic propagates a walk panic (the Go
process dies before reaching the persistence code); outOfFuel is the fuel
artifact. -/
inductive GenOutcome where
  | ok (cl : ChangeLog)
  | err (msg : String)
  | panic
  | outOfFuel

/-- GenerateReleaseNotes (lines 97-180) with its collaborators as
parameters: stateFileExists is the os.Stat check of line 104, loadState is
persistence.LoadState, compare is the CompareCommits call, classify is
github.GeneratePatchRelease (taking the accumulated backport PRs, flat PRs
and commit list, returning their updates, the still unclassified commits
and an optional error), and store is persistence.StoreState (returning an
optional error). The second component of the result records every store
invocation: its arguments and its result. Note that on a walk comparison
error (lines 119-121) the function returns before any store, and that
after classification the store happens unconditionally (line 163) before
the classification error, if any, is returned (lines 169-171); the store
result err2 is only printed (lines 164-168) and never returned. -/
def GenerateReleaseNotes (stateFileExists : Bool)
    (loadState : Except String (BackportPRs × PullRequests × List String))
    (compare : String → Except String (List String)) (fuel : Nat)
    (classify : BackportPRs → PullRequests → List String →
      BackportPRs × PullRequests × List String × Option String)
    (store : BackportPRs → PullRequests → List String → Option String)
    (cfg : Config) :
    GenOutcome × List ((BackportPRs × PullRequests × List String) × Option String) :=
  let phase2 := fun (b : BackportPRs) (l : PullRequests) (headNow : String) (shas : List String) =>
    let r := classify b l shas
    let stored := ((r.1, r.2.1, r.2.2.1), store r.1 r.2.1 r.2.2.1)
    match r.2.2.2 with
    | some e => (GenOutcome.err ("unable to retrieve PRs for commits: " ++ e ++ "\n"), [stored])
    | none =>
      (GenOutcome.ok { cfg := { cfg with Head := headNow },
                       prsWithUpstream := r.1, listOfPrs := r.2.1 }, [stored])
  if stateFileExists then
    match loadState with
    | .error e => (.err ("Unable to read persistence file: " ++ e), [])
    | .ok (b, l, shas) => phase2 b l cfg.Head shas
  else
    match walkGo compare fuel cfg.Head "" false [] with
    | .success h shas => phase2 [] [] h shas
    | .compareError h e _ =>
      (.err ("Unable to compare commits " ++ cfg.Base ++ " " ++ h ++ ": " ++ e ++ "\n"), [])
    | .panic _ => (.panic, [])
    | .fuelExhausted _ => (.outOfFuel, [])

/-! ## PrintReleaseNotes (lines 182-273) -/

/-- The backported check of lines 212-221: with a non-empty last-stable
string, a PR whose backport branch list has a branch containing that
string is treated as already released. -/
def isBackported (lastStable : String) (pr : PullRequest) : Bool :=
  (lastStable != "") && pr.BackportBranches.any (fun bb => strContains bb lastStable)

/-- Scan of all inner backport mappings for one category (lines 189-207):
the emissions, in scan order, as (backport PR number, upstream PR number,
entry) triples. -/
def backportScanEmit (L : String) (bps : BackportPRs) : List (Nat × Nat × PullRequest) :=
  bps.flatMap (fun bp =>
    (bp.2.filter (fun e => e.2.ReleaseLabel == L)).map (fun e => (bp.1, e.1, e.2)))

/-- The same scan viewed on the mappings: each emitted entry is deleted
from its inner mapping (line 205). -/
def backportScanRemove (L : String) (bps : BackportPRs) : BackportPRs :=
  bps.map (fun bp => (bp.1, bp.2.filter (fun e => !(e.2.ReleaseLabel == L))))

/-- Scan of the flat mapping for one category (lines 208-234): emitted are
the entries with the scanned label that are not skipped as backported. -/
def flatScanEmit (L lastStable : String) (flat : PullRequests) : List (Nat × PullRequest) :=
  flat.filter (fun e => e.2.ReleaseLabel == L && !(isBackported lastStable e.2))

/-- The same scan viewed on the mapping: only emitted entries are deleted
(line 233); entries skipped by the backported check of lines 219-221 hit
continue before the delete and stay. -/
def flatScanKeep (L lastStable : String) (flat : PullRequests) : PullRequests :=
  flat.filter (fun e => !(e.2.ReleaseLabel == L) || isBackported lastStable e.2)

/-- State after the per-category loop of lines 186-241 over a list of
category labels: emissions of the backport scans and of the flat scans
(each grouped by category in order), and the final two mappings. -/
structure MainLoopOut where
  bEmit : List (Nat × Nat × PullRequest)
  fEmit : List (Nat × PullRequest)
  bpsLeft : BackportPRs
  flatLeft : PullRequests

/-- The per-category loop of lines 186-241. -/
def printLoop (lastStable : String) : List String → BackportPRs → PullRequests → MainLoopOut
  | [], bps, flat => { bEmit := [], fEmit := [], bpsLeft := bps, flatLeft := flat }
  | L :: Ls, bps, flat =>
    let rest := printLoop lastStable Ls (backportScanRemove L bps) (flatScanKeep L lastStable flat)
    { bEmit := backportScanEmit L bps ++ rest.bEmit,
      fEmit := flatScanEmit L lastStable flat ++ rest.fEmit,
      bpsLeft := rest.bpsLeft,
      flatLeft := rest.flatLeft }

/-- The leftover diagnostic loop of lines 249-272: same per-category scan
of the remaining flat mapping, without any backported check. -/
def leftoverLoop : List String → PullRequests → List (Nat × PullRequest) × PullRequests
  | [], flat => ([], flat)
  | L :: Ls, flat =>
    let rest := leftoverLoop Ls (flat.filter (fun e => !(e.2.ReleaseLabel == L)))
    ((flat.filter (fun e => e.2.ReleaseLabel == L)) ++ rest.1, rest.2)

/-- Line format for an entry of an inner backport mapping (lines 200-204). -/
def fmtBackportLine (outer inner : Nat) (pr : PullRequest) : String :=
  "* " ++ pr.ReleaseNote ++ " (Backport PR #" ++ toString outer ++
    ", Upstream PR #" ++ toString inner ++ ", @" ++ pr.AuthorName ++ ")"

/-- Line format for an entry of the flat mapping (lines 229-232, 260-263). -/
def fmtFlatLine (id : Nat) (pr : PullRequest) : String :=
  "* " ++ pr.ReleaseNote ++ " (#" ++ toString id ++ ", @" ++ pr.AuthorName ++ ")"

/-- Observable content of PrintReleaseNotes: the main-pass emissions, the
flat mapping left after the main pass, and the emissions of the leftover
diagnostic block (empty when nothing is left, line 243-245). Per category,
the printed lines are the formatted emissions sorted case-insensitively;
headers are presentation and not modelled. -/
structure PrintOutput where
  mainBackportEmitted : List (Nat × Nat × PullRequest)
  mainFlatEmitted : List (Nat × PullRequest)
  flatRemaining : PullRequests
  leftoverEmitted : List (Nat × PullRequest)

/-- PrintReleaseNotes (lines 182-273). -/
def PrintReleaseNotes (cl : ChangeLog) : PrintOutput :=
  let m := printLoop cl.cfg.LastStable releaseNotesOrder cl.prsWithUpstream cl.listOfPrs
  { mainBackportEmitted := m.bEmit,
    mainFlatEmitted := m.fEmit,
    flatRemaining := m.flatLeft,
    leftoverEmitted :=
      if m.flatLeft.length = 0 then [] else (leftoverLoop releaseNotesOrder m.flatLeft).1 }

/-! ## Concrete instances used by counterexamples and witnesses -/

def cfgSlashEmpty : Config :=
  { Base := "b", Head := "h", LastStable := "", StateFile := "s",
    RepoName := "a/", Owner := "", Repo := "", CurrVer := "", NextVer := "",
    ForceMovePending := false }

def cfgOnlyName : Config :=
  { Base := "b", Head := "h", LastStable := "0.9v", StateFile := "s",
    RepoName := "onlyname", Owner := "", Repo := "", CurrVer := "", NextVer := "",
    ForceMovePending := false }

def cfgCaller : Config :=
  { Base := "b", Head := "h", LastStable := "", StateFile := "s",
    RepoName := "x/y", Owner := "zzz", Repo := "www", CurrVer := "", NextVer := "",
    ForceMovePending := false }

def cfgStable : Config :=
  { Base := "v1", Head := "v2", LastStable := "1.0", StateFile := "s",
    RepoName := "o/r", Owner := "o", Repo := "r", CurrVer := "", NextVer := "",
    ForceMovePending := false }

/-- A PR already backported to a branch containing the last-stable "1.0". -/
def prBackported : PullRequest :=
  { AuthorName := "alice", ReleaseNote := "Fix X",
    ReleaseLabel := "release-note/bug", BackportBranches := ["v1.0"] }

/-- A PR of the same category with no backport branches. -/
def prPlain : PullRequest :=
  { AuthorName := "bob", ReleaseNote := "Add Y",
    ReleaseLabel := "release-note/bug", BackportBranches := [] }

def clStable : ChangeLog :=
  { cfg := cfgStable, prsWithUpstream := [], listOfPrs := [(10, prBackported)] }

def clStable2 : ChangeLog :=
  { cfg := cfgStable, prsWithUpstream := [],
    listOfPrs := [(10, prBackported), (11, prPlain)] }

/-- An inner mapping holding upstream PR 5, used by two backport PRs. -/
def innerW : PullRequests := [(5, prPlain)]

def clBackport : ChangeLog :=
  { cfg := cfgStable, prsWithUpstream := [(20, innerW), (21, innerW)], listOfPrs := [] }

/-- An oracle whose pages are always empty. -/
def emptyPageOracle : String → Except String (List String) := fun _ => .ok []

/-- An oracle whose first (and every) page has exactly one commit. -/
def singlePageOracle : String → Except String (List String) := fun _ => .ok ["a"]

def cfgWalk : Config :=
  { Base := "base", Head := "head", LastStable := "", StateFile := "s",
    RepoName := "o/r", Owner := "o", Repo := "r", CurrVer := "", NextVer := "",
    ForceMovePending := false }

/-- An oracle that answers the first comparison and fails on the second. -/
def failingOracle : String → Except String (List String) := fun s =>
  if s = "d" then .ok ["a", "b", "c", "d"] else .error "boom"

def cfgFail : Config :=
  { Base := "base", Head := "d", LastStable := "", StateFile := "s",
    RepoName := "o/r", Owner := "o", Repo := "r", CurrVer := "", NextVer := "",
    ForceMovePending := false }

/-- An oracle that stalls immediately: the walk succeeds after two pages. -/
def stallOracle : String → Except String (List String) := fun _ => .ok ["a", "b"]

def prWit : PullRequest :=
  { AuthorName := "alice", ReleaseNote := "Fix X",
    ReleaseLabel := "release-note/bug", BackportBranches := [] }

/-- A classifier that fails partway, returning one classified PR and one
unclassified commit. -/
def classifyFail : BackportPRs → PullRequests → List String →
    BackportPRs × PullRequests × List String × Option String :=
  fun _ _ _ => ([], [(7, prWit)], ["a"], some "boom")

/-- A store that fails. -/
def storeFail : BackportPRs → PullRequests → List String → Option String :=
  fun _ _ _ => some "disk full"

/-- A five-commit synthetic history (base-to-head) for the C1 witness. -/
def historyFive : List String := ["a", "b", "c", "d", "e"]

/-- Cut points for the C1 witness: every page reaches two commits below
its head, except the bottom page which starts at the base. -/
def cutFive : Nat → Nat := fun j => if j = 1 then 0 else j - 2

/-- The comparison oracle of the C1 witness, answering each query head
with the matching slice of historyFive. -/
def compareFive : String → Except String (List String) := fun s =>
  if s = "b" then .ok ["a", "b"]
  else if s = "c" then .ok ["a", "b", "c"]
  else if s = "d" then .ok ["b", "c", "d"]
  else if s = "e" then .ok ["c", "d", "e"]
  else .error "no page"

/-! ## Theorems -/

/-- C6 counterexample: the repository name "a/" does not split into two
non-empty parts, yet Config.Sanitize accepts it (the code only checks that
the number of parts is exactly two, not that they are non-empty). -/
theorem c6_sanitize_counterexample :
    (Config.Sanitize cfgSlashEmpty).2 = none
    ∧ splitsIntoTwoNonEmptyParts "a/" = false := by
  constructor <;> decide

/-- C6 amended: Config.Sanitize returns an error for every repository
identifier that does not split on the slash into exactly two parts (parts
may be empty), and returns an error whenever the last-stable string
contains the letter v (in particular for "0.9v"). -/
theorem c6_sanitize_errors (cfg : Config) :
    ((goStringsSplit cfg.RepoName '/').length ≠ 2 →
      (Config.Sanitize cfg).2.isSome = true)
    ∧ (strContains cfg.LastStable "v" = true →
      (Config.Sanitize cfg).2.isSome = true) := by
  constructor
  · intro h
    unfold Config.Sanitize
    rw [if_pos h]
    rfl
  · intro h
    unfold Config.Sanitize
    dsimp only
    split
    · rfl
    · split_ifs <;> simp_all

/-- C6 witness: on the concrete inputs named by the spec, "onlyname" as
repository identifier and "0.9v" as last-stable both yield errors. -/
theorem c6_sanitize_errors_witness :
    (Config.Sanitize cfgOnlyName).2.isSome = true
    ∧ (Config.Sanitize { cfgOnlyName with RepoName := "o/r" }).2.isSome = true :=
  ⟨(c6_sanitize_errors cfgOnlyName).1 (by decide),
   (c6_sanitize_errors { cfgOnlyName with RepoName := "o/r" }).2 (by decide)⟩

/-- C9: Config.Sanitize never modifies the caller Config value. Because the
receiver is passed by value, the caller state after the call is exactly the
Config before the call, in every field; yet the body does assign the split
owner and name to the Owner and Repo fields of its local copy, so those
assignments are genuinely discarded. -/
theorem c9_sanitize_value_receiver (cfg : Config) :
    (sanitizeValueCall cfg).1 = cfg
    ∧ ((goStringsSplit cfg.RepoName '/').length = 2 →
        (Config.Sanitize cfg).1.Owner = (goStringsSplit cfg.RepoName '/').getD 0 ""
        ∧ (Config.Sanitize cfg).1.Repo = (goStringsSplit cfg.RepoName '/').getD 1 "") := by
  refine ⟨rfl, ?_⟩
  intro h
  unfold Config.Sanitize
  dsimp only
  rw [if_neg (by omega)]
  exact ⟨rfl, rfl⟩

/-- C9 witness: for a Config whose Owner field starts as "zzz" and whose
RepoName is "x/y", the caller still sees Owner "zzz" after the call, even
though the body of Sanitize set the Owner of its local copy to "x". -/
theorem c9_sanitize_value_receiver_witness :
    (sanitizeValueCall cfgCaller).1 = cfgCaller
    ∧ (Config.Sanitize cfgCaller).1.Owner = "x"
    ∧ cfgCaller.Owner = "zzz" := by
  refine ⟨(c9_sanitize_value_receiver cfgCaller).1, ?_, rfl⟩
  have h := (c9_sanitize_value_receiver cfgCaller).2 (by decide)
  rw [h.1]
  decide

/-- Unfolding of the walk loop when one iteration continues. -/
theorem walkGo_step_next {compare : String → Except String (List String)}
    {head prevHead : String} {cont : Bool} {shas : List String}
    {h p : String} {s : List String} (fuel : Nat)
    (hstep : walkStep compare head prevHead cont shas = StepResult.next h p s) :
    walkGo compare (fuel + 1) head prevHead cont shas = walkGo compare fuel h p true s := by
  simp only [walkGo, hstep]

/-- Unfolding of the walk loop when one iteration terminates the walk. -/
theorem walkGo_step_done {compare : String → Except String (List String)}
    {head prevHead : String} {cont : Bool} {shas : List String}
    {s : List String} (fuel : Nat)
    (hstep : walkStep compare head prevHead cont shas = StepResult.done s) :
    walkGo compare (fuel + 1) head prevHead cont shas = WalkResult.success head s := by
  simp only [walkGo, hstep]

/-- Reduced form of one walk iteration once the comparison answer and its
non-emptiness are known. -/
theorem walkStep_of_ok (compare : String → Except String (List String))
    (head prevHead : String) (cont : Bool) (shas commits : List String)
    (hc : compare head = Except.ok commits) (hlen : ¬ commits.length = 0) :
    walkStep compare head prevHead cont shas =
      if prevHead = commits.getLastD "" then
        StepResult.done (if commits.headD "" = "" then shas else shas ++ [commits.headD ""])
      else if cont ∧ commits.length = 1 then StepResult.panic shas
      else if (pageStore commits
          (if cont then commits.length - 2 else commits.length - 1) shas).length = 0 then
        StepResult.panic (pageStore commits
          (if cont then commits.length - 2 else commits.length - 1) shas)
      else
        StepResult.next
          ((pageStore commits
            (if cont then commits.length - 2 else commits.length - 1) shas).getLastD "")
          (commits.getLastD "")
          (pageStore commits
            (if cont then commits.length - 2 else commits.length - 1) shas) := by
  unfold walkStep
  rw [hc]
  dsimp only
  rw [if_neg hlen]

/-- One walk iteration that stores a page and continues. -/
theorem walkStep_next_of {compare : String → Except String (List String)}
    {head prevHead : String} {cont : Bool} {shas commits : List String}
    (hc : compare head = Except.ok commits) (hlen : ¬ commits.length = 0)
    (hprev : ¬ prevHead = commits.getLastD "")
    (hone : ¬ (cont = true ∧ commits.length = 1))
    {s2 : List String}
    (hps : pageStore commits
      (if cont then commits.length - 2 else commits.length - 1) shas = s2)
    (hs2 : ¬ s2.length = 0) :
    walkStep compare head prevHead cont shas
      = StepResult.next (s2.getLastD "") (commits.getLastD "") s2 := by
  rw [walkStep_of_ok compare head prevHead cont shas commits hc hlen,
    if_neg hprev, if_neg hone, hps, if_neg hs2]

/-- One walk iteration that detects the stall and terminates. -/
theorem walkStep_done_of {compare : String → Except String (List String)}
    {head prevHead : String} {cont : Bool} {shas commits : List String}
    (hc : compare head = Except.ok commits) (hlen : ¬ commits.length = 0)
    (hprev : prevHead = commits.getLastD "") :
    walkStep compare head prevHead cont shas
      = StepResult.done (if commits.headD "" = "" then shas else shas ++ [commits.headD ""]) := by
  rw [walkStep_of_ok compare head prevHead cont shas commits hc hlen, if_pos hprev]

/-- C8: the commit walk terminates exactly when the last identifier of the
newest comparison page equals the last identifier of the previous page
(stall detection, lines 122-128); on that final iteration it appends only
the first, oldest, identifier of the final page to the accumulated list. -/
theorem c8_walk_stall_termination (compare : String → Except String (List String))
    (head prevHead : String) (cont : Bool) (shas commits : List String)
    (hc : compare head = Except.ok commits) (hne : commits ≠ [])
    (hfirst : commits.headD "" ≠ "") :
    ((∃ l, walkStep compare head prevHead cont shas = StepResult.done l)
        ↔ prevHead = commits.getLastD "")
    ∧ (prevHead = commits.getLastD "" →
        walkStep compare head prevHead cont shas = StepResult.done (shas ++ [commits.headD ""]))
    ∧ (∀ fuel l, walkStep compare head prevHead cont shas = StepResult.done l →
        walkGo compare (fuel + 1) head prevHead cont shas = WalkResult.success head l) := by
  have hlen : ¬ commits.length = 0 := by
    simpa [List.length_eq_zero] using hne
  have hstep := walkStep_of_ok compare head prevHead cont shas commits hc hlen
  refine ⟨⟨?_, ?_⟩, ?_, ?_⟩
  · rintro ⟨l, hl⟩
    rw [hstep] at hl
    by_cases hp : prevHead = commits.getLastD ""
    · exact hp
    · rw [if_neg hp] at hl
      split_ifs at hl
  · intro hp
    exact ⟨_, by rw [hstep, if_pos hp]⟩
  · intro hp
    rw [hstep, if_pos hp, if_neg hfirst]
  · intro fuel l hl
    simp only [walkGo, hl]

/-- C8 witness: a concrete stalled page. The oracle answers the query for
head b with the page [a, b]; with prevHead b the step terminates and
appends exactly a. -/
theorem c8_walk_stall_termination_witness :
    walkStep (fun _ => Except.ok ["a", "b"]) "b" "b" true ["c", "b"]
      = StepResult.done ["c", "b", "a"]
    ∧ walkGo (fun _ => Except.ok ["a", "b"]) 4 "b" "b" true ["c", "b"]
      = WalkResult.success "b" ["c", "b", "a"] := by
  have h := c8_walk_stall_termination (fun _ => Except.ok ["a", "b"]) "b" "b" true
    ["c", "b"] ["a", "b"] rfl (by decide) (by decide)
  have hd := h.2.1 (by decide)
  exact ⟨hd, h.2.2 3 _ hd⟩

/-- The inner loop of lines 144-149 stores the page slice from index 1 to
index start, in reverse, after the accumulated identifiers, when all page
identifiers are non-empty. -/
theorem pageStore_eq (commits : List String) (hne : ∀ s ∈ commits, s ≠ "") :
    ∀ start : Nat, start < commits.length → ∀ shas : List String,
    pageStore commits start shas = shas ++ ((commits.take (start + 1)).drop 1).reverse := by
  intro start
  induction start with
  | zero =>
    intro _ shas
    have hnil : (commits.take 1).drop 1 = [] := by
      apply List.drop_eq_nil_of_le
      rw [List.length_take]
      omega
    rw [pageStore, hnil]
    simp
  | succ i ih =>
    intro hlt shas
    have hi1 : i + 1 < commits.length := hlt
    have hgd : commits.getD (i + 1) "" = commits[i + 1] :=
      List.getD_eq_getElem commits "" hi1
    have hneq : ¬ commits.getD (i + 1) "" = "" := by
      rw [hgd]
      exact hne _ (List.getElem_mem hi1)
    rw [pageStore]
    rw [if_neg hneq, ih (by omega) (shas ++ [commits.getD (i + 1) ""])]
    conv_rhs => rw [List.take_succ]
    rw [List.getElem?_eq_getElem hi1]
    rw [List.drop_append_of_le_length (by rw [List.length_take]; omega)]
    rw [List.reverse_append]
    simp [hgd, List.getElem?_eq_getElem hi1]

/-- Dropping the boundary entry of a truncated page slice. -/
theorem chunk_take_drop (H : List String) (i j k : Nat) (hk : k ≤ j + 1 - i) :
    ((chunk H i j).take k).drop 1 = (H.drop (i + 1)).take (k - 1) := by
  unfold chunk
  rw [List.take_take, Nat.min_eq_left hk, List.drop_take, List.drop_drop]

/-- Length of a page slice. -/
theorem chunk_length (H : List String) (i j : Nat) (hj : j < H.length) :
    (chunk H i j).length = j + 1 - i := by
  unfold chunk
  rw [List.length_take, List.length_drop]
  omega

/-- Optional indexing into a page slice. -/
theorem chunk_getElem? (H : List String) (i j k : Nat) (hk : k < j + 1 - i) :
    (chunk H i j)[k]? = H[i + k]? := by
  unfold chunk
  rw [List.getElem?_take_of_lt hk, List.getElem?_drop]

/-- The last identifier of a page slice is the queried head. -/
theorem chunk_getLastD (H : List String) (i j : Nat) (hij : i ≤ j) (hj : j < H.length) :
    (chunk H i j).getLastD "" = H.getD j "" := by
  rw [List.getLastD_eq_getLast?, List.getLast?_eq_getElem?, chunk_length H i j hj,
    chunk_getElem? H i j (j + 1 - i - 1) (by omega), List.getD_eq_getElem?_getD]
  have e : i + (j + 1 - i - 1) = j := by omega
  rw [e]

/-- The first identifier of a page slice is its cut point. -/
theorem chunk_headD (H : List String) (i j : Nat) (hij : i ≤ j) (_hj : j < H.length) :
    (chunk H i j).headD "" = H.getD i "" := by
  rw [List.headD_eq_head?_getD, List.head?_eq_getElem?,
    chunk_getElem? H i j 0 (by omega), List.getD_eq_getElem?_getD]
  rfl

/-- Page slices only hold identifiers of the history. -/
theorem mem_of_mem_chunk (H : List String) (i j : Nat) (s : String)
    (hs : s ∈ chunk H i j) : s ∈ H :=
  List.mem_of_mem_drop (List.mem_of_mem_take hs)

/-- Indexing the history is injective on distinct positions. -/
theorem nodup_getD_ne (H : List String) (hnd : H.Nodup) (i j : Nat)
    (hi : i < H.length) (hj : j < H.length) (hij : i ≠ j) :
    H.getD i "" ≠ H.getD j "" := by
  rw [List.getD_eq_getElem H "" hi, List.getD_eq_getElem H "" hj]
  intro e
  exact hij ((List.Nodup.getElem_inj_iff hnd).mp e)

/-- An indexed element of the history is one of its members. -/
theorem getD_mem (H : List String) (j : Nat) (hj : j < H.length) :
    H.getD j "" ∈ H := by
  rw [List.getD_eq_getElem H "" hj]
  exact List.getElem_mem hj

/-- The last entry of the reversed suffix from j is the element at j. -/
theorem reverse_drop_getLastD (H : List String) (j : Nat) (hj : j < H.length) :
    ((H.drop j).reverse).getLastD "" = H.getD j "" := by
  have e := List.getElem_cons_drop H j hj
  rw [← e, List.reverse_cons, List.getLastD_concat, List.getD_eq_getElem H "" hj]

/-- Gluing a freshly stored segment under the already stored suffix. -/
theorem reverse_drop_glue (H : List String) (a b : Nat) (hab : a ≤ b) :
    (H.drop b).reverse ++ ((H.drop a).take (b - a)).reverse = (H.drop a).reverse := by
  rw [← List.reverse_append]
  congr 1
  conv_rhs => rw [← List.take_append_drop (b - a) (H.drop a)]
  congr 1
  rw [List.drop_drop]
  congr 1
  omega

/-- Appending the base element under the reversed strict suffix yields the
whole reversed history. -/
theorem reverse_drop_one (H : List String) (hH : 0 < H.length) :
    (H.drop 1).reverse ++ [H.getD 0 ""] = H.reverse := by
  have e := List.getElem_cons_drop H 0 hH
  rw [List.drop_zero] at e
  conv_rhs => rw [← e]
  rw [List.reverse_cons, List.getD_eq_getElem H "" hH]

/-- The first iteration of the walk (no cont flag yet): the first page is
stored except its bottom boundary entry, head-first. -/
theorem walk_step_first (H : List String) (cut : Nat → Nat)
    (compare : String → Except String (List String))
    (h : CoversHistory H cut compare) :
    walkStep compare (H.getD (H.length - 1) "") "" false []
      = StepResult.next (H.getD (cut (H.length - 1) + 1) "") (H.getD (H.length - 1) "")
          ((H.drop (cut (H.length - 1) + 1)).reverse) := by
  have hn := h.two_le
  have hj1 : 1 ≤ H.length - 1 := by omega
  have hjn : H.length - 1 < H.length := by omega
  have hcut : cut (H.length - 1) + 1 ≤ H.length - 1 := by
    by_cases h2 : 2 ≤ H.length - 1
    · have := h.cut_lt (H.length - 1) h2 hjn
      omega
    · have e1 : H.length - 1 = 1 := by omega
      rw [e1, h.cut_one]
  have hpage := h.pages (H.length - 1) hj1 hjn
  have hlenc : (chunk H (cut (H.length - 1)) (H.length - 1)).length
      = H.length - cut (H.length - 1) :=
    by rw [chunk_length H _ _ hjn]; omega
  have hlast : (chunk H (cut (H.length - 1)) (H.length - 1)).getLastD ""
      = H.getD (H.length - 1) "" :=
    chunk_getLastD H _ _ (by omega) hjn
  have hprev : ¬ "" = (chunk H (cut (H.length - 1)) (H.length - 1)).getLastD "" := by
    rw [hlast]
    intro e
    exact h.nonempty _ (getD_mem H _ hjn) e.symm
  have hone : ¬ ((false : Bool) = true
      ∧ (chunk H (cut (H.length - 1)) (H.length - 1)).length = 1) := by
    rintro ⟨hb, _⟩
    exact Bool.noConfusion hb
  have hps : pageStore (chunk H (cut (H.length - 1)) (H.length - 1))
      ((chunk H (cut (H.length - 1)) (H.length - 1)).length - 1) []
      = (H.drop (cut (H.length - 1) + 1)).reverse := by
    rw [pageStore_eq _ (fun s hs => h.nonempty s (mem_of_mem_chunk H _ _ s hs)) _
      (by omega) []]
    have e1 : (chunk H (cut (H.length - 1)) (H.length - 1)).length - 1 + 1
        = (chunk H (cut (H.length - 1)) (H.length - 1)).length := by omega
    rw [e1, List.take_length,
      show (chunk H (cut (H.length - 1)) (H.length - 1))
        = (chunk H (cut (H.length - 1)) (H.length - 1)).take
            ((chunk H (cut (H.length - 1)) (H.length - 1)).length) from
        (List.take_length _).symm]
    rw [chunk_take_drop H _ _ _ (by omega)]
    rw [List.take_of_length_le (by rw [List.length_drop]; omega)]
    simp
  rw [walkStep_next_of hpage (by omega) hprev hone hps
    (by rw [List.length_reverse, List.length_drop]; omega)]
  rw [reverse_drop_getLastD H _ (by omega), hlast]

/-- A middle iteration of the walk at head H[j] with the suffix from j
already stored: the page from the cut point to j is stored except its two
boundary entries, and the walk continues at the cut point successor. -/
theorem walk_step_mid (H : List String) (cut : Nat → Nat)
    (compare : String → Except String (List String))
    (h : CoversHistory H cut compare) (j p : Nat)
    (hj : 2 ≤ j) (hjp : j < p) (hp : p < H.length) :
    walkStep compare (H.getD j "") (H.getD p "") true ((H.drop j).reverse)
      = StepResult.next (H.getD (cut j + 1) "") (H.getD j "")
          ((H.drop (cut j + 1)).reverse) := by
  have hjn : j < H.length := by omega
  have hcut := h.cut_lt j hj hjn
  have hpage := h.pages j (by omega) hjn
  have hlenc : (chunk H (cut j) j).length = j + 1 - cut j := chunk_length H _ _ hjn
  have hlast : (chunk H (cut j) j).getLastD "" = H.getD j "" :=
    chunk_getLastD H _ _ (by omega) hjn
  have hprev : ¬ H.getD p "" = (chunk H (cut j) j).getLastD "" := by
    rw [hlast]
    exact nodup_getD_ne H h.nodup p j hp hjn (by omega)
  have hone : ¬ ((true : Bool) = true ∧ (chunk H (cut j) j).length = 1) := by
    rintro ⟨_, hl⟩
    omega
  have hps : pageStore (chunk H (cut j) j) ((chunk H (cut j) j).length - 2)
      ((H.drop j).reverse) = (H.drop (cut j + 1)).reverse := by
    rw [pageStore_eq _ (fun s hs => h.nonempty s (mem_of_mem_chunk H _ _ s hs)) _
      (by omega) ((H.drop j).reverse)]
    have e1 : (chunk H (cut j) j).length - 2 + 1 = (chunk H (cut j) j).length - 1 := by
      omega
    rw [e1, chunk_take_drop H _ _ _ (by omega)]
    have e2 : (chunk H (cut j) j).length - 1 - 1 = j - (cut j + 1) := by omega
    rw [e2]
    exact reverse_drop_glue H (cut j + 1) j (by omega)
  rw [walkStep_next_of hpage (by omega) hprev hone hps
    (by rw [List.length_reverse, List.length_drop]; omega)]
  rw [reverse_drop_getLastD H _ (by omega), hlast]

/-- The iteration at head H[1] before the stall: the bottom page holds
only the base boundary and the head, nothing new is stored, and prevHead
catches up with the head. -/
theorem walk_step_low (H : List String) (cut : Nat → Nat)
    (compare : String → Except String (List String))
    (h : CoversHistory H cut compare) (p : Nat) (hp2 : 2 ≤ p) (hp : p < H.length) :
    walkStep compare (H.getD 1 "") (H.getD p "") true ((H.drop 1).reverse)
      = StepResult.next (H.getD 1 "") (H.getD 1 "") ((H.drop 1).reverse) := by
  have hn := h.two_le
  have h1n : 1 < H.length := by omega
  have hpage := h.pages 1 (by omega) h1n
  rw [h.cut_one] at hpage
  have hlenc : (chunk H 0 1).length = 2 := by rw [chunk_length H 0 1 h1n]
  have hlast : (chunk H 0 1).getLastD "" = H.getD 1 "" :=
    chunk_getLastD H 0 1 (by omega) h1n
  have hprev : ¬ H.getD p "" = (chunk H 0 1).getLastD "" := by
    rw [hlast]
    exact nodup_getD_ne H h.nodup p 1 hp h1n (by omega)
  have hone : ¬ ((true : Bool) = true ∧ (chunk H 0 1).length = 1) := by
    rintro ⟨_, hl⟩
    omega
  have hps : pageStore (chunk H 0 1) ((chunk H 0 1).length - 2) ((H.drop 1).reverse)
      = (H.drop 1).reverse := by
    have e0 : (chunk H 0 1).length - 2 = 0 := by omega
    rw [e0, pageStore]
  rw [walkStep_next_of hpage (by omega) hprev hone hps
    (by rw [List.length_reverse, List.length_drop]; omega)]
  rw [reverse_drop_getLastD H 1 h1n, hlast]

/-- The stall iteration: prevHead equals the last identifier of the
bottom page, so the walk terminates, appending the base commit; the
result is the full history, head-first. -/
theorem walk_step_end (H : List String) (cut : Nat → Nat)
    (compare : String → Except String (List String))
    (h : CoversHistory H cut compare) :
    walkStep compare (H.getD 1 "") (H.getD 1 "") true ((H.drop 1).reverse)
      = StepResult.done H.reverse := by
  have hn := h.two_le
  have h1n : 1 < H.length := by omega
  have hpage := h.pages 1 (by omega) h1n
  rw [h.cut_one] at hpage
  have hlenc : (chunk H 0 1).length = 2 := by rw [chunk_length H 0 1 h1n]
  have hlast : (chunk H 0 1).getLastD "" = H.getD 1 "" :=
    chunk_getLastD H 0 1 (by omega) h1n
  have hhead : (chunk H 0 1).headD "" = H.getD 0 "" :=
    chunk_headD H 0 1 (by omega) h1n
  rw [walkStep_done_of hpage (by omega) hlast.symm]
  rw [hhead, if_neg (h.nonempty _ (getD_mem H 0 (by omega)))]
  rw [reverse_drop_one H (by omega)]

/-- Invariant of the walk: from any state where the suffix of the history
from position j is stored, the head is H[j], and prevHead is a strictly
higher history entry, the walk with enough fuel finishes with the full
reversed history. -/
theorem walk_inv (H : List String) (cut : Nat → Nat)
    (compare : String → Except String (List String))
    (h : CoversHistory H cut compare) :
    ∀ j p fuel, 1 ≤ j → j < p → p < H.length → j + 2 ≤ fuel →
    walkGo compare fuel (H.getD j "") (H.getD p "") true ((H.drop j).reverse)
      = WalkResult.success (H.getD 1 "") H.reverse := by
  intro j
  induction j using Nat.strong_induction_on with
  | _ j ih =>
    intro p fuel h1 hjp hp hfuel
    obtain ⟨f, rfl⟩ : ∃ f, fuel = f + 1 := ⟨fuel - 1, by omega⟩
    by_cases hj2 : 2 ≤ j
    · have hcut := h.cut_lt j hj2 (by omega)
      rw [walkGo_step_next f (walk_step_mid H cut compare h j p hj2 hjp hp)]
      exact ih (cut j + 1) (by omega) j f (by omega) (by omega) (by omega) (by omega)
    · have hj1 : j = 1 := by omega
      subst hj1
      rw [walkGo_step_next f (walk_step_low H cut compare h p (by omega) hp)]
      obtain ⟨g, rfl⟩ : ∃ g, f = g + 1 := ⟨f - 1, by omega⟩
      rw [walkGo_step_done g (walk_step_end H cut compare h)]

/-- C1: for every synthetic commit history covered by consistent paginated
comparison responses (each page a contiguous slice of the history ending
at the queried head, overlapping the accumulated list in exactly the one
boundary commit, only stalling at the true base), the commit walk of
GenerateReleaseNotes produces exactly that history ordered head-first,
with no identifier twice (the history is duplicate-free and the output is
its exact reversal) and none omitted. -/
theorem c1_commit_walk_exact_history (H : List String) (cut : Nat → Nat)
    (compare : String → Except String (List String))
    (h : CoversHistory H cut compare) :
    walkGo compare (H.length + 2) (H.getD (H.length - 1) "") "" false []
      = WalkResult.success (H.getD 1 "") H.reverse := by
  have hn := h.two_le
  rw [show H.length + 2 = (H.length + 1) + 1 from rfl,
    walkGo_step_next (H.length + 1) (walk_step_first H cut compare h)]
  by_cases h2 : H.length = 2
  · have hj : H.length - 1 = 1 := by omega
    rw [hj, h.cut_one]
    rw [show (0 : Nat) + 1 = 1 from rfl]
    obtain ⟨g, hg⟩ : ∃ g, H.length + 1 = g + 1 := ⟨H.length, rfl⟩
    rw [hg, walkGo_step_done g (walk_step_end H cut compare h)]
  · have h3 : 3 ≤ H.length := by omega
    have hcut := h.cut_lt (H.length - 1) (by omega) (by omega)
    exact walk_inv H cut compare h (cut (H.length - 1) + 1) (H.length - 1)
      (H.length + 1) (by omega) (by omega) (by omega) (by omega)

/-- C1 witness: a concrete five-commit history covered by four pages
(with the bottom page repeated at the stall); the walk returns exactly
the history, head-first. -/
theorem c1_commit_walk_exact_history_witness :
    walkGo compareFive 7 "e" "" false []
      = WalkResult.success "b" ["e", "d", "c", "b", "a"] := by
  have h : CoversHistory historyFive cutFive compareFive := by
    refine ⟨by decide, by decide, by decide, ?_, by decide, ?_⟩
    · intro j h2 h5
      unfold cutFive
      rw [if_neg (by omega)]
      omega
    · intro j h1 h5
      have h5' : j < 5 := by simpa [historyFive] using h5
      interval_cases j <;> rfl
  exact c1_commit_walk_exact_history historyFive cutFive compareFive h

/-- C10: the commit walk is not total on short comparison responses. An
empty page makes line 122 index an empty slice at -1, and a first page
with exactly one commit leaves the accumulated list empty so line 150
indexes shas[-1]; in both cases GenerateReleaseNotes dies with an
out-of-bounds panic instead of returning an error (and, in particular,
persists nothing). -/
theorem c10_walk_out_of_bounds :
    GenerateReleaseNotes false (Except.error "unused") emptyPageOracle 5
        (fun b l s => (b, l, s, none)) (fun _ _ _ => none) cfgWalk
      = (GenOutcome.panic, [])
    ∧ GenerateReleaseNotes false (Except.error "unused") singlePageOracle 5
        (fun b l s => (b, l, s, none)) (fun _ _ _ => none) cfgWalk
      = (GenOutcome.panic, [])
    ∧ walkGo emptyPageOracle 5 "head" "" false [] = WalkResult.panic []
    ∧ walkGo singlePageOracle 5 "head" "" false [] = WalkResult.panic [] :=
  ⟨rfl, rfl, rfl, rfl⟩

/-- C4 counterexample: a run in which the second comparison fails. The
walk aborts with the partial list [d, c, b] accumulated, the error is
surfaced, but the list of store invocations is empty: the partial list is
NOT persisted, because GenerateReleaseNotes returns at line 120 before
ever reaching the StoreState call of line 163. -/
theorem c4_walk_error_counterexample :
    walkGo failingOracle 5 "d" "" false []
      = WalkResult.compareError "b" "boom" ["d", "c", "b"]
    ∧ GenerateReleaseNotes false (Except.error "unused") failingOracle 5
        (fun b l s => (b, l, s, none)) (fun _ _ _ => none) cfgFail
      = (GenOutcome.err "Unable to compare commits base b: boom\n", []) :=
  ⟨rfl, rfl⟩

/-- C4 amended: when a comparison call fails, the walk aborts without
retrying and the error is surfaced to the caller, but the partially
accumulated commit list is NOT persisted: the function returns before any
store invocation, discarding the partial list. -/
theorem c4_walk_error_not_persisted
    (loadState : Except String (BackportPRs × PullRequests × List String))
    (compare : String → Except String (List String)) (fuel : Nat)
    (classify : BackportPRs → PullRequests → List String →
      BackportPRs × PullRequests × List String × Option String)
    (store : BackportPRs → PullRequests → List String → Option String)
    (cfg : Config) (h e : String) (shas : List String)
    (hw : walkGo compare fuel cfg.Head "" false []
      = WalkResult.compareError h e shas) :
    GenerateReleaseNotes false loadState compare fuel classify store cfg
      = (GenOutcome.err
          ("Unable to compare commits " ++ cfg.Base ++ " " ++ h ++ ": " ++ e ++ "\n"),
         []) := by
  simp only [GenerateReleaseNotes]
  rw [if_neg (fun hh => Bool.noConfusion hh), hw]

/-- C4 witness: the amended statement at the concrete failing run. -/
theorem c4_walk_error_not_persisted_witness :
    GenerateReleaseNotes false (Except.error "unused") failingOracle 5
        classifyFail storeFail cfgFail
      = (GenOutcome.err "Unable to compare commits base b: boom\n", []) :=
  c4_walk_error_not_persisted (Except.error "unused") failingOracle 5
    classifyFail storeFail cfgFail "b" "boom" ["d", "c", "b"] rfl

/-- C5: when classification fails partway, GenerateReleaseNotes stores the
classified mappings together with the unclassified remainder (exactly one
store invocation, line 163, with exactly those arguments), and then
returns the classification error; this holds for every store collaborator,
so a store failure is recorded (and reported, lines 164-168) but what is
returned to the caller is the classification error, never the store
error. -/
theorem c5_classification_error_store_first
    (loadState : Except String (BackportPRs × PullRequests × List String))
    (compare : String → Except String (List String)) (fuel : Nat)
    (classify : BackportPRs → PullRequests → List String →
      BackportPRs × PullRequests × List String × Option String)
    (store : BackportPRs → PullRequests → List String → Option String)
    (cfg : Config) (fh : String) (shas : List String)
    (b : BackportPRs) (l : PullRequests) (left : List String) (e : String)
    (hw : walkGo compare fuel cfg.Head "" false [] = WalkResult.success fh shas)
    (hcls : classify [] [] shas = (b, l, left, some e)) :
    GenerateReleaseNotes false loadState compare fuel classify store cfg
      = (GenOutcome.err ("unable to retrieve PRs for commits: " ++ e ++ "\n"),
         [((b, l, left), store b l left)]) := by
  simp only [GenerateReleaseNotes]
  rw [if_neg (fun hh => Bool.noConfusion hh), hw]
  dsimp only
  rw [hcls]

/-- C5 witness: a run whose walk succeeds with [b, a], whose classifier
fails with error boom after classifying PR 7 and leaving commit a
unclassified, and whose store also fails with disk full: the single store
invocation receives the classified PR plus the remainder, records the
store failure, and the returned error is the classification error. -/
theorem c5_classification_error_store_first_witness :
    GenerateReleaseNotes false (Except.error "unused") stallOracle 5
        classifyFail storeFail cfgWalk
      = (GenOutcome.err "unable to retrieve PRs for commits: boom\n",
         [(([], [(7, prWit)], ["a"]), some "disk full")]) :=
  c5_classification_error_store_first (Except.error "unused") stallOracle 5
    classifyFail storeFail cfgWalk "b" ["b", "a"] [] [(7, prWit)] ["a"] "boom" rfl rfl

/-- In a mapping with duplicate-free keys, the key determines the entry. -/
theorem keys_nodup_eq {α : Type} {l : List (Nat × α)} (h : (l.map Prod.fst).Nodup)
    {k : Nat} {a b : α} (ha : (k, a) ∈ l) (hb : (k, b) ∈ l) : a = b := by
  induction l with
  | nil => cases ha
  | cons x xs ih =>
    rw [List.map_cons, List.nodup_cons] at h
    cases ha with
    | head =>
      cases hb with
      | head => rfl
      | tail _ hb2 => exact absurd (List.mem_map_of_mem Prod.fst hb2) h.1
    | tail _ ha2 =>
      cases hb with
      | head => exact absurd (List.mem_map_of_mem Prod.fst ha2) h.1
      | tail _ hb2 => exact ih h.2 ha2 hb2

/-- The flat mapping left after the per-category scans: an entry stays iff
its label is not among the scanned categories or it is skipped as already
backported. -/
theorem printLoop_flatLeft (ls : String) :
    ∀ (Ls : List String) (bps : BackportPRs) (flat : PullRequests),
    (printLoop ls Ls bps flat).flatLeft
      = flat.filter (fun e => !(Ls.contains e.2.ReleaseLabel && !(isBackported ls e.2))) := by
  intro Ls
  induction Ls with
  | nil =>
    intro bps flat
    rw [printLoop]
    simp
  | cons L Ls ih =>
    intro bps flat
    rw [printLoop]
    dsimp only
    rw [ih]
    unfold flatScanKeep
    rw [List.filter_filter]
    apply List.filter_congr
    intro e _
    simp only [List.contains_cons]
    cases hb : isBackported ls e.2 <;> cases hl : e.2.ReleaseLabel == L <;>
      cases hc : Ls.contains e.2.ReleaseLabel <;> rfl

/-- The flat entries emitted by the per-category scans are exactly those
whose label is among the scanned categories and that are not skipped as
already backported. -/
theorem printLoop_fEmit_mem (ls : String) :
    ∀ (Ls : List String) (bps : BackportPRs) (flat : PullRequests) (e : Nat × PullRequest),
    e ∈ (printLoop ls Ls bps flat).fEmit
      ↔ e ∈ flat ∧ Ls.contains e.2.ReleaseLabel = true ∧ isBackported ls e.2 = false := by
  intro Ls
  induction Ls with
  | nil =>
    intro bps flat e
    rw [printLoop]
    simp
  | cons L Ls ih =>
    intro bps flat e
    rw [printLoop]
    dsimp only
    rw [List.mem_append, ih]
    unfold flatScanEmit flatScanKeep
    simp only [List.mem_filter, List.contains_cons]
    cases hl : e.2.ReleaseLabel == L <;> cases hb : isBackported ls e.2 <;>
      cases hc : Ls.contains e.2.ReleaseLabel <;> simp

/-- No flat entry is emitted twice across the per-category scans: the
emitted keys are duplicate-free when the mapping keys are. -/
theorem printLoop_fEmit_keys (ls : String) :
    ∀ (Ls : List String) (bps : BackportPRs) (flat : PullRequests),
    (flat.map Prod.fst).Nodup →
    ((printLoop ls Ls bps flat).fEmit.map Prod.fst).Nodup := by
  intro Ls
  induction Ls with
  | nil =>
    intro bps flat _
    rw [printLoop]
    simp
  | cons L Ls ih =>
    intro bps flat hk
    rw [printLoop]
    dsimp only
    rw [List.map_append]
    have hkeep : ((flatScanKeep L ls flat).map Prod.fst).Nodup :=
      (((List.filter_sublist flat).map Prod.fst)).nodup hk
    have hemit : ((flatScanEmit L ls flat).map Prod.fst).Nodup :=
      (((List.filter_sublist flat).map Prod.fst)).nodup hk
    refine List.Nodup.append hemit
      (ih (backportScanRemove L bps) (flatScanKeep L ls flat) hkeep) ?_
    intro k hk1 hk2
    rw [List.mem_map] at hk1 hk2
    obtain ⟨⟨k1, pr1⟩, he1, hke1⟩ := hk1
    obtain ⟨⟨k2, pr2⟩, he2, hke2⟩ := hk2
    dsimp only at hke1 hke2
    subst hke1
    subst hke2
    unfold flatScanEmit at he1
    have he1f := List.mem_filter.mp he1
    have he2m := (printLoop_fEmit_mem ls Ls (backportScanRemove L bps)
      (flatScanKeep L ls flat) (k2, pr2)).mp he2
    unfold flatScanKeep at he2m
    have he2f := List.mem_filter.mp he2m.1
    have hpr : pr1 = pr2 := keys_nodup_eq hk he1f.1 he2f.1
    subst hpr
    have hp1 := he1f.2
    have hp2 := he2f.2
    dsimp only at hp1 hp2
    cases hl : pr1.ReleaseLabel == L <;> cases hb : isBackported ls pr1 <;>
      rw [hl, hb] at hp1 hp2 <;> simp_all

/-- The leftover diagnostic loop prints each remaining entry exactly once
when every remaining label is among the scanned categories. -/
theorem leftoverLoop_perm :
    ∀ (Ls : List String) (flat : PullRequests),
    (∀ e ∈ flat, Ls.contains e.2.ReleaseLabel = true) →
    List.Perm (leftoverLoop Ls flat).1 flat := by
  intro Ls
  induction Ls with
  | nil =>
    intro flat h
    match flat, h with
    | [], _ => rw [leftoverLoop]
    | e :: t, h => exact absurd (h e (List.mem_cons_self e t)) (by simp)
  | cons L Ls ih =>
    intro flat h
    rw [leftoverLoop]
    dsimp only
    refine List.Perm.trans (List.Perm.append_left _ (ih _ ?_)) (List.filter_append_perm _ flat)
    intro e he
    have hmem := h e (List.mem_of_mem_filter he)
    rw [List.contains_cons] at hmem
    have hne := (List.mem_filter.mp he).2
    cases hl : e.2.ReleaseLabel == L
    · rw [hl] at hmem
      simpa using hmem
    · rw [hl] at hne
      simp at hne

/-- C2 counterexample: a flat PR whose label matches the scanned category
but which is skipped as already backported to the last-stable branch is
NOT removed from the mapping: the scan of lines 208-234 hits continue at
line 220 before the delete of line 233, and the entry survives the whole
main pass (that is precisely what feeds the leftover diagnostic block). -/
theorem c2_flat_removal_counterexample :
    prBackported.ReleaseLabel = "release-note/bug"
    ∧ isBackported "1.0" prBackported = true
    ∧ flatScanEmit "release-note/bug" "1.0" [(10, prBackported)] = []
    ∧ flatScanKeep "release-note/bug" "1.0" [(10, prBackported)] = [(10, prBackported)]
    ∧ (PrintReleaseNotes clStable).flatRemaining = [(10, prBackported)] :=
  ⟨rfl, by decide, by decide, by decide, by decide⟩

/-- C2 amended: a flat entry matching the scanned category is removed
exactly when it is emitted; an entry skipped as already backported to the
last-stable branch stays in the mapping (feeding the leftover diagnostic
block). Still, no flat PR entry is ever emitted twice across the
per-category scans: the emitted keys are duplicate-free. -/
theorem c2_flat_removed_iff_emitted (cl : ChangeLog)
    (hk : (cl.listOfPrs.map Prod.fst).Nodup) :
    ((PrintReleaseNotes cl).flatRemaining
        = cl.listOfPrs.filter (fun e =>
            !(releaseNotesOrder.contains e.2.ReleaseLabel
              && !(isBackported cl.cfg.LastStable e.2))))
    ∧ (∀ e, e ∈ (PrintReleaseNotes cl).mainFlatEmitted
        ↔ e ∈ cl.listOfPrs ∧ releaseNotesOrder.contains e.2.ReleaseLabel = true
          ∧ isBackported cl.cfg.LastStable e.2 = false)
    ∧ ((PrintReleaseNotes cl).mainFlatEmitted.map Prod.fst).Nodup :=
  ⟨printLoop_flatLeft cl.cfg.LastStable releaseNotesOrder cl.prsWithUpstream cl.listOfPrs,
   fun e => printLoop_fEmit_mem cl.cfg.LastStable releaseNotesOrder cl.prsWithUpstream
     cl.listOfPrs e,
   printLoop_fEmit_keys cl.cfg.LastStable releaseNotesOrder cl.prsWithUpstream
     cl.listOfPrs hk⟩

/-- C2 witness: with one backported PR 10 and one plain PR 11 of the same
category, the backported one stays in the mapping, the plain one is
emitted, and no key is emitted twice. -/
theorem c2_flat_removed_iff_emitted_witness :
    (PrintReleaseNotes clStable2).flatRemaining = [(10, prBackported)]
    ∧ (11, prPlain) ∈ (PrintReleaseNotes clStable2).mainFlatEmitted
    ∧ ((PrintReleaseNotes clStable2).mainFlatEmitted.map Prod.fst).Nodup := by
  have h := c2_flat_removed_iff_emitted clStable2 (by decide)
  refine ⟨?_, ?_, h.2.2⟩
  · rw [h.1]
    decide
  · exact (h.2.1 (11, prPlain)).mpr (by decide)

/-- C3: under the data model of the spec (every release label is one of
the fixed categories), the entries remaining in the flat mapping after
all per-category scans are exactly those excluded as backported to the
last-stable branch, and the diagnostic leftover block prints exactly
those entries, each once. -/
theorem c3_leftover_exactly_backported (cl : ChangeLog)
    (hlab : ∀ e ∈ cl.listOfPrs, releaseNotesOrder.contains e.2.ReleaseLabel = true) :
    (PrintReleaseNotes cl).flatRemaining
        = cl.listOfPrs.filter (fun e => isBackported cl.cfg.LastStable e.2)
    ∧ List.Perm (PrintReleaseNotes cl).leftoverEmitted (PrintReleaseNotes cl).flatRemaining := by
  have hrem : (PrintReleaseNotes cl).flatRemaining
      = cl.listOfPrs.filter (fun e => isBackported cl.cfg.LastStable e.2) := by
    show (printLoop cl.cfg.LastStable releaseNotesOrder cl.prsWithUpstream
        cl.listOfPrs).flatLeft = _
    rw [printLoop_flatLeft]
    apply List.filter_congr
    intro e he
    rw [hlab e he]
    cases hb : isBackported cl.cfg.LastStable e.2 <;> rfl
  refine ⟨hrem, ?_⟩
  show List.Perm
    (if (printLoop cl.cfg.LastStable releaseNotesOrder cl.prsWithUpstream
        cl.listOfPrs).flatLeft.length = 0 then []
     else (leftoverLoop releaseNotesOrder (printLoop cl.cfg.LastStable releaseNotesOrder
        cl.prsWithUpstream cl.listOfPrs).flatLeft).1) _
  by_cases hz : (printLoop cl.cfg.LastStable releaseNotesOrder cl.prsWithUpstream
      cl.listOfPrs).flatLeft.length = 0
  · rw [if_pos hz]
    show List.Perm [] (printLoop cl.cfg.LastStable releaseNotesOrder cl.prsWithUpstream
      cl.listOfPrs).flatLeft
    rw [List.length_eq_zero.mp hz]
  · rw [if_neg hz]
    apply leftoverLoop_perm
    intro e he
    rw [printLoop_flatLeft] at he
    exact hlab e (List.mem_filter.mp he).1

/-- C3 witness: PR 10 (backported to v1.0, last-stable 1.0) is exactly
what remains and exactly what the diagnostic block prints; PR 11 is not
in it. -/
theorem c3_leftover_exactly_backported_witness :
    (PrintReleaseNotes clStable2).flatRemaining = [(10, prBackported)]
    ∧ List.Perm (PrintReleaseNotes clStable2).leftoverEmitted [(10, prBackported)] := by
  have h := c3_leftover_exactly_backported clStable2 (by decide)
  have he : (PrintReleaseNotes clStable2).flatRemaining = [(10, prBackported)] := by
    rw [h.1]
    decide
  refine ⟨he, ?_⟩
  have hp := h.2
  rw [he] at hp
  exact hp

/-- Keys of the backport map are untouched by a category scan. -/
theorem backportScanRemove_keys (L : String) (bps : BackportPRs) :
    (backportScanRemove L bps).map Prod.fst = bps.map Prod.fst := by
  unfold backportScanRemove
  rw [List.map_map]
  rfl

/-- Inner key uniqueness is preserved by a category scan. -/
theorem backportScanRemove_inner_nodup (L : String) (bps : BackportPRs)
    (hinner : ∀ bp ∈ bps, (bp.2.map Prod.fst).Nodup) :
    ∀ bp ∈ backportScanRemove L bps, (bp.2.map Prod.fst).Nodup := by
  intro bp hbp
  unfold backportScanRemove at hbp
  rw [List.mem_map] at hbp
  obtain ⟨bp0, hbp0, rfl⟩ := hbp
  exact ((List.filter_sublist bp0.2).map Prod.fst).nodup (hinner bp0 hbp0)

/-- Count of one emission triple in a single category scan: one when the
entry carries the scanned label and sits in the inner mapping of that
backport PR, zero otherwise. -/
theorem backportScanEmit_count (L : String) (b i : Nat) (q : PullRequest) :
    ∀ bps : BackportPRs, (bps.map Prod.fst).Nodup →
    (∀ bp ∈ bps, (bp.2.map Prod.fst).Nodup) →
    (backportScanEmit L bps).count (b, i, q)
      = if (q.ReleaseLabel == L) = true
          ∧ ∃ bp ∈ bps, bp.1 = b ∧ (i, q) ∈ bp.2
        then 1 else 0 := by
  intro bps
  induction bps with
  | nil =>
    intro _ _
    rw [if_neg]
    · rfl
    · rintro ⟨_, x, hx, _, _⟩
      cases hx
  | cons bp bps ih =>
    intro houter hinner
    unfold backportScanEmit
    rw [List.flatMap_cons, List.count_append]
    rw [List.map_cons, List.nodup_cons] at houter
    have hrest0 := ih houter.2 (fun x hx => hinner x (List.mem_cons_of_mem bp hx))
    unfold backportScanEmit at hrest0
    by_cases hb : b = bp.1
    · subst hb
      have hinj : Function.Injective
          (fun e : Nat × PullRequest => ((bp.1 : Nat), e.1, e.2)) := by
        intro x y hxy
        simp only [Prod.mk.injEq] at hxy
        cases x
        cases y
        simp_all
      have hmapcount : ((bp.2.filter (fun e => e.2.ReleaseLabel == L)).map
          (fun e => ((bp.1 : Nat), e.1, e.2))).count (bp.1, i, q)
          = (bp.2.filter (fun e => e.2.ReleaseLabel == L)).count (i, q) :=
        List.count_map_of_injective _ _ hinj (i, q)
      rw [hmapcount, hrest0]
      have hrestz : (if (q.ReleaseLabel == L) = true
          ∧ ∃ x ∈ bps, x.1 = bp.1 ∧ (i, q) ∈ x.2 then 1 else 0) = 0 := by
        rw [if_neg]
        rintro ⟨_, x, hx, hxb, _⟩
        exact houter.1 (hxb ▸ List.mem_map_of_mem Prod.fst hx)
      rw [hrestz, Nat.add_zero]
      by_cases hql : (q.ReleaseLabel == L) = true
      · have hnd : bp.2.Nodup :=
          List.Nodup.of_map Prod.fst (hinner bp (List.mem_cons_self bp bps))
        have hfn : (bp.2.filter (fun e => e.2.ReleaseLabel == L)).Nodup :=
          (List.filter_sublist bp.2).nodup hnd
        by_cases hq : (i, q) ∈ bp.2
        · have hmemf : (i, q) ∈ bp.2.filter (fun e => e.2.ReleaseLabel == L) :=
            List.mem_filter.mpr ⟨hq, hql⟩
          have hc1 : (bp.2.filter (fun e => e.2.ReleaseLabel == L)).count (i, q) = 1 := by
            have hle := List.nodup_iff_count_le_one.mp hfn (i, q)
            have hpos : 0 < (bp.2.filter (fun e => e.2.ReleaseLabel == L)).count (i, q) :=
              List.count_pos_iff.mpr hmemf
            omega
          rw [hc1, if_pos ⟨hql, bp, List.mem_cons_self bp bps, rfl, hq⟩]
        · rw [List.count_eq_zero.mpr
            (fun hm => hq (List.mem_filter.mp hm).1), if_neg]
          rintro ⟨_, x, hmem, hxb, hiq⟩
          rcases List.mem_cons.mp hmem with he | ht
          · subst he
            exact hq hiq
          · exact houter.1 (hxb ▸ List.mem_map_of_mem Prod.fst ht)
      · have hz : (bp.2.filter (fun e => e.2.ReleaseLabel == L)).count (i, q) = 0 := by
          apply List.count_eq_zero.mpr
          intro hmem
          exact hql (List.mem_filter.mp hmem).2
        rw [hz, if_neg (fun hc => hql hc.1)]
    · have hz : ((bp.2.filter (fun e => e.2.ReleaseLabel == L)).map
          (fun e => (bp.1, e.1, e.2))).count (b, i, q) = 0 := by
        apply List.count_eq_zero.mpr
        intro hmem
        rw [List.mem_map] at hmem
        obtain ⟨e0, _, he0⟩ := hmem
        exact hb (congrArg Prod.fst he0).symm
      rw [hz, hrest0, Nat.zero_add]
      have hiff : ((q.ReleaseLabel == L) = true
            ∧ ∃ x ∈ bps, x.1 = b ∧ (i, q) ∈ x.2)
          ↔ ((q.ReleaseLabel == L) = true
            ∧ ∃ x ∈ bp :: bps, x.1 = b ∧ (i, q) ∈ x.2) := by
        constructor
        · rintro ⟨h1, x, hmem, hxb, hiq⟩
          exact ⟨h1, x, List.mem_cons_of_mem bp hmem, hxb, hiq⟩
        · rintro ⟨h1, x, hmem, hxb, hiq⟩
          rcases List.mem_cons.mp hmem with he | ht
          · subst he
            exact absurd hxb.symm hb
          · exact ⟨h1, x, ht, hxb, hiq⟩
      exact if_congr hiff rfl rfl

/-- Count of one emission triple across the whole main pass: one when the
entry carries a label among the scanned categories and sits in that
backport PR, zero otherwise. -/
theorem printLoop_bEmit_count (ls : String) (b i : Nat) (q : PullRequest) :
    ∀ (Ls : List String) (bps : BackportPRs) (flat : PullRequests),
    (bps.map Prod.fst).Nodup →
    (∀ bp ∈ bps, (bp.2.map Prod.fst).Nodup) →
    (printLoop ls Ls bps flat).bEmit.count (b, i, q)
      = if Ls.contains q.ReleaseLabel = true
          ∧ ∃ bp ∈ bps, bp.1 = b ∧ (i, q) ∈ bp.2
        then 1 else 0 := by
  intro Ls
  induction Ls with
  | nil =>
    intro bps flat _ _
    rw [printLoop, if_neg]
    · rfl
    · rintro ⟨hc, _⟩
      simp at hc
  | cons L Ls ih =>
    intro bps flat houter hinner
    rw [printLoop]
    dsimp only
    rw [List.count_append, backportScanEmit_count L b i q bps houter hinner,
      ih (backportScanRemove L bps) (flatScanKeep L ls flat)
        (by rw [backportScanRemove_keys]; exact houter)
        (backportScanRemove_inner_nodup L bps hinner)]
    by_cases hql : (q.ReleaseLabel == L) = true
    · have h2 : ¬ (Ls.contains q.ReleaseLabel = true
          ∧ ∃ x ∈ backportScanRemove L bps, x.1 = b ∧ (i, q) ∈ x.2) := by
        rintro ⟨_, x, hmem, _, hiq⟩
        unfold backportScanRemove at hmem
        rw [List.mem_map] at hmem
        obtain ⟨bp0, _, rfl⟩ := hmem
        have hneg := (List.mem_filter.mp hiq).2
        rw [hql] at hneg
        simp at hneg
      rw [if_neg h2, Nat.add_zero]
      have hiff : ((q.ReleaseLabel == L) = true
            ∧ ∃ x ∈ bps, x.1 = b ∧ (i, q) ∈ x.2)
          ↔ ((L :: Ls).contains q.ReleaseLabel = true
            ∧ ∃ x ∈ bps, x.1 = b ∧ (i, q) ∈ x.2) := by
        constructor
        · rintro ⟨_, hex⟩
          refine ⟨?_, hex⟩
          rw [List.contains_cons, hql]
          rfl
        · rintro ⟨_, hex⟩
          exact ⟨hql, hex⟩
      exact if_congr hiff rfl rfl
    · rw [if_neg (fun hc => hql hc.1), Nat.zero_add]
      have hqlf : (q.ReleaseLabel == L) = false := by
        cases hq0 : (q.ReleaseLabel == L)
        · rfl
        · exact absurd hq0 hql
      have hiff : (Ls.contains q.ReleaseLabel = true
            ∧ ∃ x ∈ backportScanRemove L bps, x.1 = b ∧ (i, q) ∈ x.2)
          ↔ ((L :: Ls).contains q.ReleaseLabel = true
            ∧ ∃ x ∈ bps, x.1 = b ∧ (i, q) ∈ x.2) := by
        constructor
        · rintro ⟨hc, x, hmem, hxb, hiq⟩
          unfold backportScanRemove at hmem
          rw [List.mem_map] at hmem
          obtain ⟨bp0, hbp0, rfl⟩ := hmem
          refine ⟨?_, bp0, hbp0, hxb, List.mem_of_mem_filter hiq⟩
          rw [List.contains_cons, hqlf]
          simpa using hc
        · rintro ⟨hc, bp0, hmem, hxb, hiq⟩
          rw [List.contains_cons, hqlf] at hc
          refine ⟨by simpa using hc,
            (bp0.1, bp0.2.filter (fun e => !(e.2.ReleaseLabel == L))), ?_, hxb, ?_⟩
          · unfold backportScanRemove
            exact List.mem_map_of_mem _ hmem
          · refine List.mem_filter.mpr ⟨hiq, ?_⟩
            rw [hqlf]
            rfl
      exact if_congr hiff rfl rfl

/-- Counting is unchanged by a filter that the counted element passes. -/
theorem count_filter_of_pos {α : Type} [BEq α] [LawfulBEq α] (l : List α)
    (pred : α → Bool) (a : α) (h : pred a = true) :
    (l.filter pred).count a = l.count a := by
  induction l with
  | nil => rfl
  | cons x xs ih =>
    rw [List.filter_cons]
    by_cases hx : pred x = true
    · rw [if_pos hx, List.count_cons, List.count_cons, ih]
    · rw [if_neg hx, ih, List.count_cons]
      have hax : (x == a) = false := by
        cases he : (x == a)
        · rfl
        · have he2 : x = a := eq_of_beq he
          subst he2
          exact absurd h hx
      rw [hax]
      simp

/-- C7: a pull request appearing in the inner mappings of exactly two
different backport PRs with the same (recognised) category label yields
exactly two emissions across the whole main pass of PrintReleaseNotes,
one per outer backport PR, and hence exactly two formatted lines; within
a single inner mapping it is emitted at most once (count one per outer),
because the entry is deleted after being formatted. -/
theorem c7_backport_pr_two_lines (cl : ChangeLog) (b1 b2 p : Nat)
    (inner1 inner2 : PullRequests) (pr : PullRequest)
    (houter : (cl.prsWithUpstream.map Prod.fst).Nodup)
    (hinner : ∀ bp ∈ cl.prsWithUpstream, (bp.2.map Prod.fst).Nodup)
    (hb1 : (b1, inner1) ∈ cl.prsWithUpstream) (hb2 : (b2, inner2) ∈ cl.prsWithUpstream)
    (hbne : b1 ≠ b2)
    (h1 : (p, pr) ∈ inner1) (h2 : (p, pr) ∈ inner2)
    (honly : ∀ bp ∈ cl.prsWithUpstream, (∃ q, (p, q) ∈ bp.2) → bp.1 = b1 ∨ bp.1 = b2)
    (hlab : releaseNotesOrder.contains pr.ReleaseLabel = true) :
    List.Perm ((PrintReleaseNotes cl).mainBackportEmitted.filter (fun t => t.2.1 == p))
      [(b1, p, pr), (b2, p, pr)]
    ∧ List.Perm (((PrintReleaseNotes cl).mainBackportEmitted.filter
        (fun t => t.2.1 == p)).map (fun t => fmtBackportLine t.1 t.2.1 t.2.2))
      [fmtBackportLine b1 p pr, fmtBackportLine b2 p pr] := by
  have hcnt : ∀ b i q, ((printLoop cl.cfg.LastStable releaseNotesOrder cl.prsWithUpstream
      cl.listOfPrs).bEmit).count (b, i, q)
      = if releaseNotesOrder.contains q.ReleaseLabel = true
          ∧ ∃ bp ∈ cl.prsWithUpstream, bp.1 = b ∧ (i, q) ∈ bp.2 then 1 else 0 :=
    fun b i q => printLoop_bEmit_count cl.cfg.LastStable b i q releaseNotesOrder
      cl.prsWithUpstream cl.listOfPrs houter hinner
  have hperm : List.Perm ((PrintReleaseNotes cl).mainBackportEmitted.filter
      (fun t => t.2.1 == p)) [(b1, p, pr), (b2, p, pr)] := by
    rw [List.perm_iff_count]
    intro a
    obtain ⟨ab, ai, aq⟩ := a
    show ((printLoop cl.cfg.LastStable releaseNotesOrder cl.prsWithUpstream
        cl.listOfPrs).bEmit.filter (fun t => t.2.1 == p)).count (ab, ai, aq) = _
    by_cases hpa : ai = p
    · subst hpa
      rw [count_filter_of_pos _ (fun t : Nat × Nat × PullRequest => t.2.1 == ai)
        (ab, ai, aq) (by simp), hcnt ab ai aq]
      by_cases hC : releaseNotesOrder.contains aq.ReleaseLabel = true
          ∧ ∃ bp ∈ cl.prsWithUpstream, bp.1 = ab ∧ (ai, aq) ∈ bp.2
      · obtain ⟨hcont, bp0, hmem, hfst, hiq⟩ := hC
        have hd := honly bp0 hmem ⟨aq, hiq⟩
        rcases hd with hda | hdb
        · have hab : ab = b1 := by rw [← hfst, hda]
          subst hab
          have hbp02 : bp0.2 = inner1 := by
            apply keys_nodup_eq houter ?_ hb1
            rw [← hda]
            exact hmem
          rw [hbp02] at hiq
          have haq : aq = pr := keys_nodup_eq (hinner (ab, inner1) hb1) hiq h1
          subst haq
          rw [if_pos ⟨hlab, (ab, inner1), hb1, rfl, h1⟩]
          have hx : (((b2 : Nat), ai, aq) == ((ab : Nat), ai, aq)) = false :=
            beq_false_of_ne (by
              simp only [Ne, Prod.mk.injEq]
              intro hc
              exact hbne hc.1.symm)
          rw [List.count_cons, List.count_cons, List.count_nil, hx]
          simp
        · have hab : ab = b2 := by rw [← hfst, hdb]
          subst hab
          have hbp02 : bp0.2 = inner2 := by
            apply keys_nodup_eq houter ?_ hb2
            rw [← hdb]
            exact hmem
          rw [hbp02] at hiq
          have haq : aq = pr := keys_nodup_eq (hinner (ab, inner2) hb2) hiq h2
          subst haq
          rw [if_pos ⟨hlab, (ab, inner2), hb2, rfl, h2⟩]
          have hx : (((b1 : Nat), ai, aq) == ((ab : Nat), ai, aq)) = false :=
            beq_false_of_ne (by
              simp only [Ne, Prod.mk.injEq]
              intro hc
              exact hbne hc.1)
          rw [List.count_cons, List.count_cons, List.count_nil, hx]
          simp
      · rw [if_neg hC]
        symm
        apply List.count_eq_zero.mpr
        intro hm
        rcases List.mem_cons.mp hm with he | hm2
        · simp only [Prod.mk.injEq] at he
          obtain ⟨hab, _, haq⟩ := he
          subst hab
          subst haq
          exact hC ⟨hlab, (ab, inner1), hb1, rfl, h1⟩
        · rcases List.mem_cons.mp hm2 with he | hn
          · simp only [Prod.mk.injEq] at he
            obtain ⟨hab, _, haq⟩ := he
            subst hab
            subst haq
            exact hC ⟨hlab, (ab, inner2), hb2, rfl, h2⟩
          · cases hn
    · have h0 : (((printLoop cl.cfg.LastStable releaseNotesOrder cl.prsWithUpstream
          cl.listOfPrs).bEmit).filter (fun t => t.2.1 == p)).count (ab, ai, aq) = 0 := by
        apply List.count_eq_zero.mpr
        intro hm
        have hp2 := (List.mem_filter.mp hm).2
        exact hpa (by simpa using hp2)
      rw [h0]
      symm
      apply List.count_eq_zero.mpr
      intro hm
      rcases List.mem_cons.mp hm with he | hm2
      · simp only [Prod.mk.injEq] at he
        exact hpa he.2.1
      · rcases List.mem_cons.mp hm2 with he | hn
        · simp only [Prod.mk.injEq] at he
          exact hpa he.2.1
        · cases hn
  exact ⟨hperm, hperm.map _⟩

/-- C7 witness: upstream PR 5 sits in the inner mappings of backport PRs
20 and 21; the main pass emits it exactly twice, once per outer, and the
two formatted lines name the two outers. -/
theorem c7_backport_pr_two_lines_witness :
    List.Perm ((PrintReleaseNotes clBackport).mainBackportEmitted.filter
      (fun t => t.2.1 == 5)) [(20, 5, prPlain), (21, 5, prPlain)]
    ∧ List.Perm (((PrintReleaseNotes clBackport).mainBackportEmitted.filter
        (fun t => t.2.1 == 5)).map (fun t => fmtBackportLine t.1 t.2.1 t.2.2))
      [fmtBackportLine 20 5 prPlain, fmtBackportLine 21 5 prPlain] := by
  refine c7_backport_pr_two_lines clBackport 20 21 5 innerW innerW prPlain
    (by decide) (by decide) (by decide) (by decide) (by decide) (by decide) (by decide)
    ?_ (by decide)
  intro bp hbp _
  rcases List.mem_cons.mp hbp with he | hbp2
  · subst he
    left
    rfl
  · rcases List.mem_cons.mp hbp2 with he | hn
    · subst he
      right
      rfl
    · cases hn
